import Mathlib

/-!
Shallow embedding of GoogleCloudPlatform/firestore-gorilla-sessions
(`store.go`), a Firestore-backed gorilla/sessions store.

The repository's own code (`serialize`, `deserialize`, `New`, `Save`,
`readIDFromCookie`, `saveIDInCookie`) is translated directly.  External
collaborators (Go's `encoding/json`, the Firestore client, HTTP cookies)
are modelled as explicit Lean functions and environment records:
`encoding/json` as a concrete JSON printer/parser pair over a JSON value
type, Firestore `Get`/`Set`/`NewDoc` as an environment plus an explicit
state, and cookies as option-valued lookups.
-/

namespace FirestoreGorilla

mutual
/-- A Go `interface{}` value that is JSON-representable, as stored in a
session's `Values`.  JSON objects are association lists in textual order;
Go's `json.Marshal` writes map keys in sorted order, which the session
codec realises by building object field lists with sorted insertion. -/
inductive JValue where
  | null : JValue
  | bool (b : Bool) : JValue
  | num (n : Int) : JValue
  | str (s : String) : JValue
  | arr (elems : JArray) : JValue
  | obj (fields : JObject) : JValue

inductive JArray where
  | nil : JArray
  | cons (hd : JValue) (tl : JArray) : JArray

inductive JObject where
  | nil : JObject
  | cons (k : String) (v : JValue) (tl : JObject) : JObject
end

/-- Decimal digit to its character. -/
def digitChar (d : Nat) : Char := Char.ofNat (48 + d)

/-- Big-endian decimal digits of `n`, prefixed to `acc`; `fuel` bounds the
recursion (any `fuel ≥ n` is enough). -/
def natToChars : Nat → Nat → List Char → List Char
  | 0, _, acc => acc
  | _ + 1, 0, acc => acc
  | fuel + 1, n + 1, acc =>
    natToChars fuel ((n + 1) / 10) (digitChar ((n + 1) % 10) :: acc)

/-- Decimal rendering of a natural number, as `encoding/json` writes it. -/
def printNat (n : Nat) : List Char :=
  if n = 0 then ['0'] else natToChars n n []

/-- Decimal rendering of an integer. -/
def printInt : Int → List Char
  | .ofNat n => printNat n
  | .negSucc n => '-' :: printNat (n + 1)

/-- JSON string escaping: only `"` and `\` need a backslash in this model
of the encoder's output alphabet. -/
def escapeChar (c : Char) : List Char :=
  if c = '"' ∨ c = '\\' then ['\\', c] else [c]

/-- Escape every character of a string body. -/
def escapeString : List Char → List Char
  | [] => []
  | c :: cs => escapeChar c ++ escapeString cs

mutual
/-- JSON text produced for a value, as Go's `json.Marshal` writes it (no
whitespace, object fields in list order). -/
def printValue : (v : JValue) → List Char
  | .null => "null".data
  | .bool true => "true".data
  | .bool false => "false".data
  | .num n => printInt n
  | .str s => '"' :: (escapeString s.data ++ ['"'])
  | .arr es => '[' :: (printElems es ++ [']'])
  | .obj fs => '{' :: (printFields fs ++ ['}'])
termination_by structural v => v

/-- Comma-separated rendering of array elements. -/
def printElems : (es : JArray) → List Char
  | .nil => []
  | .cons v tl => printValue v ++ printElemsTail tl
termination_by structural es => es

/-- Rendering of array elements after the first, each preceded by `,`. -/
def printElemsTail : (es : JArray) → List Char
  | .nil => []
  | .cons v tl => ',' :: (printValue v ++ printElemsTail tl)
termination_by structural es => es

/-- Comma-separated rendering of object fields. -/
def printFields : (fs : JObject) → List Char
  | .nil => []
  | .cons k v tl =>
    '"' :: (escapeString k.data ++ '"' :: ':' :: (printValue v ++ printFieldsTail tl))
termination_by structural fs => fs

/-- Rendering of object fields after the first, each preceded by `,`. -/
def printFieldsTail : (fs : JObject) → List Char
  | .nil => []
  | .cons k v tl =>
    ',' :: '"' :: (escapeString k.data ++ '"' :: ':' :: (printValue v ++ printFieldsTail tl))
termination_by structural fs => fs
end

/-- Is `c` a decimal digit? -/
def isDigitChar (c : Char) : Bool := 48 ≤ c.toNat ∧ c.toNat ≤ 57

/-- Character to its decimal digit value. -/
def charToDigit (c : Char) : Nat := c.toNat - 48

/-- Split off the longest prefix of decimal digits. -/
def takeDigits : List Char → List Char × List Char
  | [] => ([], [])
  | c :: cs =>
    if isDigitChar c then
      let p := takeDigits cs
      (c :: p.1, p.2)
    else ([], c :: cs)

/-- Value of a big-endian digit string. -/
def digitsVal (ds : List Char) : Nat :=
  ds.foldl (fun a c => 10 * a + charToDigit c) 0

/-- Match a literal character sequence at the front of the input and
return the remainder. -/
def dropLit : List Char → List Char → Option (List Char)
  | [], input => some input
  | _ :: _, [] => none
  | p :: ps, c :: cs => if c = p then dropLit ps cs else none

/-- Parse the body of a JSON string (the opening `"` already consumed),
undoing backslash escapes, up to the closing `"`. -/
def parseStringChars : List Char → Option (List Char × List Char)
  | [] => none
  | c :: rest =>
    if c = '"' then some ([], rest)
    else if c = '\\' then
      match rest with
      | [] => none
      | e :: rest2 => (parseStringChars rest2).map fun p => (e :: p.1, p.2)
    else (parseStringChars rest).map fun p => (c :: p.1, p.2)

mutual
/-- Recursive-descent JSON value parser, modelling `json.Unmarshal`'s
generic decoding; `fuel` bounds the nesting work and is structurally
consumed. Returns the value and the unconsumed input. -/
def parseValue : Nat → List Char → Option (JValue × List Char)
  | 0, _ => none
  | _ + 1, [] => none
  | fuel + 1, c :: rest =>
    if c = 'n' then (dropLit ['u', 'l', 'l'] rest).map fun r => (.null, r)
    else if c = 't' then (dropLit ['r', 'u', 'e'] rest).map fun r => (.bool true, r)
    else if c = 'f' then (dropLit ['a', 'l', 's', 'e'] rest).map fun r => (.bool false, r)
    else if c = '"' then (parseStringChars rest).map fun p => (.str ⟨p.1⟩, p.2)
    else if c = '[' then
      if rest.head? = some ']' then some (.arr .nil, rest.tail)
      else
        (parseElems fuel rest).bind fun p =>
          if p.2.head? = some ']' then some (.arr p.1, p.2.tail) else none
    else if c = '{' then
      if rest.head? = some '}' then some (.obj .nil, rest.tail)
      else
        (parseFields fuel rest).bind fun p =>
          if p.2.head? = some '}' then some (.obj p.1, p.2.tail) else none
    else if c = '-' then
      let p := takeDigits rest
      if p.1 = [] then none else some (.num (-(digitsVal p.1 : Int)), p.2)
    else if isDigitChar c then
      let p := takeDigits (c :: rest)
      some (.num (digitsVal p.1 : Int), p.2)
    else none

/-- Parse one or more comma-separated JSON values. -/
def parseElems : Nat → List Char → Option (JArray × List Char)
  | 0, _ => none
  | fuel + 1, input =>
    (parseValue fuel input).bind fun p =>
      if p.2.head? = some ',' then
        (parseElems fuel p.2.tail).map fun q => (.cons p.1 q.1, q.2)
      else some (.cons p.1 .nil, p.2)

/-- Parse one or more comma-separated `"key":value` fields. -/
def parseFields : Nat → List Char → Option (JObject × List Char)
  | 0, _ => none
  | fuel + 1, input =>
    match input with
    | '"' :: rest =>
      (parseStringChars rest).bind fun kp =>
        match kp.2 with
        | ':' :: rest2 =>
          (parseValue fuel rest2).bind fun p =>
            if p.2.head? = some ',' then
              (parseFields fuel p.2.tail).map fun q => (.cons ⟨kp.1⟩ p.1 q.1, q.2)
            else some (.cons ⟨kp.1⟩ p.1 .nil, p.2)
        | _ => none
    | _ => none
end

/-- Parse a complete JSON document: one value consuming the whole input.
The fuel `s.length + 1` is always sufficient (proved below). -/
def parseTopLevel (s : List Char) : Option JValue :=
  match parseValue (s.length + 1) s with
  | some (v, []) => some v
  | _ => none

/-- `gorilla/sessions.Options`: per-session cookie policy.  `sameSite`
models Go's `http.SameSite` integer. -/
structure Options where
  path : String
  domain : String
  maxAge : Int
  secure : Bool
  httpOnly : Bool
  sameSite : Int
deriving DecidableEq

/-- The zero `sessions.Options`, as allocated by `new(Options)` in
`sessions.NewSession`. -/
def zeroOptions : Options :=
  { path := "", domain := "", maxAge := 0, secure := false, httpOnly := false, sameSite := 0 }

/-- A Go `interface{}` map key, as found in `sessions.Session.Values`
(`map[interface{}]interface{}`).  Keys other than strings are
representable but rejected by `serialize`. -/
inductive GoKey where
  | str (s : String)
  | int (n : Int)
  | bool (b : Bool)
deriving DecidableEq

/-- Is this `interface{}` key a string (Go's `k.(string)` type assertion
succeeds)? -/
def GoKey.isStr : GoKey → Bool
  | .str _ => true
  | _ => false

/-- `gorilla/sessions.Session`: id, name, values, options, is-new flag. -/
structure Session where
  id : String
  name : String
  isNew : Bool
  values : List (GoKey × JValue)
  options : Option Options

/-- `sessions.NewSession(store, name)`: empty values, zero options. -/
def NewSession (name : String) : Session :=
  { id := "", name := name, isNew := false, values := [], options := some zeroOptions }

/-- Go map lookup on a session's `Values`. -/
def lookupG : List (GoKey × JValue) → GoKey → Option JValue
  | [], _ => none
  | kv :: rest, k => if kv.1 = k then some kv.2 else lookupG rest k

/-- Tag a string-keyed association list as Go `interface{}`-keyed values;
`strKeyed l` is the generic form of a values map all of whose keys are
strings. -/
def strKeyed (l : List (String × JValue)) : List (GoKey × JValue) :=
  l.map fun kv => (GoKey.str kv.1, kv.2)

/-- Lexicographic comparison of character lists by scalar value, the
order in which `json.Marshal` sorts Go map keys. -/
def charListLt : List Char → List Char → Bool
  | _, [] => false
  | [], _ :: _ => true
  | a :: as, b :: bs =>
    if a.toNat < b.toNat then true
    else if b.toNat < a.toNat then false
    else charListLt as bs

/-- Go string `<` on the underlying characters. -/
def strLt (a b : String) : Bool := charListLt a.data b.data

/-- Sorted insertion into a JSON object, overwriting an equal key: the
canonical (sorted–key) object is how `json.Marshal` renders a Go
`map[string]interface{}`. -/
def insertValue : JObject → String → JValue → JObject
  | .nil, k, v => .cons k v .nil
  | .cons k0 v0 tl, k, v =>
    if strLt k k0 then .cons k v (.cons k0 v0 tl)
    else if k = k0 then .cons k v tl
    else .cons k0 v0 (insertValue tl k v)

/-- First-match lookup in a JSON object. -/
def lookupStr : JObject → String → Option JValue
  | .nil, _ => none
  | .cons k0 v0 tl, k => if k0 = k then some v0 else lookupStr tl k

/-- `jsonSession`: the `encoding/json`-compatible image of a session,
`{Values, ID, Options}`; `Options` is a possibly-nil pointer.  The
`Values` map is kept in its canonical sorted-key object form. -/
structure JsonSession where
  values : JObject
  id : String
  options : Option Options

/-- `sessions.Options` as the JSON object `json.Marshal` produces for it,
fields in Go declaration order. -/
def optionsToJValue (o : Options) : JValue :=
  .obj (.cons "Path" (.str o.path)
    (.cons "Domain" (.str o.domain)
      (.cons "MaxAge" (.num o.maxAge)
        (.cons "Secure" (.bool o.secure)
          (.cons "HttpOnly" (.bool o.httpOnly)
            (.cons "SameSite" (.num o.sameSite) .nil))))))

/-- `json.Marshal(jSession)`: the wire bytes of a `jsonSession`, struct
fields in declaration order, a nil `Options` pointer as `null`. -/
def marshalJsonSession (d : JsonSession) : List Char :=
  printValue (.obj (.cons "Values" (.obj d.values)
    (.cons "ID" (.str d.id)
      (.cons "Options" (match d.options with | none => .null | some o => optionsToJValue o)
        .nil))))

/-- Last occurrence of field `k` in a parsed JSON object
(`json.Unmarshal` lets a later duplicate key overwrite an earlier one). -/
def lookupLast (fs : JObject) (k : String) : Option JValue :=
  match fs with
  | .nil => none
  | .cons k0 v0 tl => match lookupLast tl k with
    | some v => some v
    | none => if k0 = k then some v0 else none

/-- Decode a struct field of Go type `string`: absent or `null` leaves
the zero value, a JSON string is taken verbatim, anything else is an
unmarshal error. -/
def decodeStringField : Option JValue → Option String
  | none => some ""
  | some .null => some ""
  | some (.str s) => some s
  | some _ => none

/-- Decode a struct field of Go integer type. -/
def decodeIntField : Option JValue → Option Int
  | none => some 0
  | some .null => some 0
  | some (.num n) => some n
  | some _ => none

/-- Decode a struct field of Go type `bool`. -/
def decodeBoolField : Option JValue → Option Bool
  | none => some false
  | some .null => some false
  | some (.bool b) => some b
  | some _ => none

/-- Decode a JSON object into a `sessions.Options` struct. -/
def decodeOptionsObj (fs : JObject) : Option Options :=
  match decodeStringField (lookupLast fs "Path"),
      decodeStringField (lookupLast fs "Domain"),
      decodeIntField (lookupLast fs "MaxAge"),
      decodeBoolField (lookupLast fs "Secure"),
      decodeBoolField (lookupLast fs "HttpOnly"),
      decodeIntField (lookupLast fs "SameSite") with
  | some p, some d, some m, some s, some h, some ss =>
    some { path := p, domain := d, maxAge := m, secure := s, httpOnly := h, sameSite := ss }
  | _, _, _, _, _, _ => none

/-- Decode the `Options` field (a possibly-nil pointer): absent or `null`
leaves the nil pointer. -/
def decodeOptionsField : Option JValue → Option (Option Options)
  | none => some none
  | some .null => some none
  | some (.obj fs) => (decodeOptionsObj fs).map some
  | some _ => none

/-- Decode the `Values` field (a Go map): absent or `null` leaves the map
nil, an object is taken field-by-field. -/
def decodeValuesField : Option JValue → Option JObject
  | none => some .nil
  | some .null => some .nil
  | some (.obj fs) => some fs
  | some _ => none

/-- `json.Unmarshal(b, &jSession)`: generic parse, then populate the
struct's fields from the top-level object, ignoring unknown fields. -/
def unmarshalJsonSession (s : List Char) : Option JsonSession :=
  match parseTopLevel s with
  | some (.obj fs) =>
    match decodeValuesField (lookupLast fs "Values"),
        decodeStringField (lookupLast fs "ID"),
        decodeOptionsField (lookupLast fs "Options") with
    | some vs, some i, some o => some { values := vs, id := i, options := o }
    | _, _, _ => none
  | _ => none

/-- The two error cases of `serialize` (`json.Marshal` itself cannot fail
on JSON-representable values, so its error branch is unreachable in this
model). -/
inductive SerializeError where
  | keyNotString (k : GoKey)
  | maxLengthExceeded (len : Nat)
deriving DecidableEq

/-- `maxLength`: Go `2 << 20` bytes, the Firestore document bound. -/
def maxLength : Nat := 2 <<< 20

/-- The key-checking copy loop at the top of `serialize`: each session
value is re-keyed into a `map[string]interface{}`, failing on the first
key whose string type assertion fails. -/
def collectValues : List (GoKey × JValue) → JObject → Except SerializeError JObject
  | [], acc => .ok acc
  | (k, v) :: rest, acc =>
    match k with
    | .str ks => collectValues rest (insertValue acc ks v)
    | _ => .error (.keyNotString k)

/-- `Store.serialize`: copy values under string keys, JSON-marshal the
`jsonSession`, then reject wire bytes longer than `maxLength`. -/
def serialize (session : Session) : Except SerializeError String :=
  match collectValues session.values .nil with
  | .error e => .error e
  | .ok values =>
    let b := marshalJsonSession { values := values, id := session.id, options := session.options }
    if b.length > maxLength then .error (.maxLengthExceeded b.length)
    else .ok ⟨b⟩

/-- The copy loop at the end of `deserialize`: the decoded
`map[string]interface{}` is poured back into a
`map[interface{}]interface{}`. -/
def objToGoValues : JObject → List (GoKey × JValue)
  | .nil => []
  | .cons k v tl => (GoKey.str k, v) :: objToGoValues tl

/-- `Store.deserialize`: JSON-unmarshal, then rebuild a session carrying
the decoded values, ID and options (name empty, `IsNew` false). -/
def deserialize (s : String) : Option Session :=
  (unmarshalJsonSession s.data).map fun j =>
    { id := j.id, name := "", isNew := false,
      values := objToGoValues j.values, options := j.options }

/-- An outgoing `http.Cookie` as `saveIDInCookie` builds it. -/
structure Cookie where
  name : String
  value : String
  path : String
  domain : String
  maxAge : Int
  secure : Bool
  httpOnly : Bool
  sameSite : Int
deriving DecidableEq

/-- `Store.saveIDInCookie`: the response cookie carrying the session ID
and the session's options. -/
def saveIDInCookie (name id : String) (opts : Options) : Cookie :=
  { name := name, value := id, path := opts.path, domain := opts.domain,
    maxAge := opts.maxAge, secure := opts.secure, httpOnly := opts.httpOnly,
    sameSite := opts.sameSite }

/-- `Store.readIDFromCookie`: the request's cookie value for `name`, or
an error when the cookie is absent (`r.Cookie` failed). -/
def readIDFromCookie (cookie : Option String) : Except String String :=
  match cookie with
  | none => .error "Cookie"
  | some v => .ok v

/-- A Firestore document as `DocumentSnapshot.DataTo(&sessionDoc{})` sees
it: either a well-formed `sessionDoc{EncodedSession}` or one on which
`DataTo` fails. -/
inductive FirestoreDoc where
  | good (encodedSession : String)
  | malformed
deriving DecidableEq

/-- Outcome of `client.Collection(name).Doc(id).Get(ctx)`: the document,
a NotFound status, or any other backend error. -/
inductive GetResult where
  | notFound
  | err (msg : String)
  | found (doc : FirestoreDoc)
deriving DecidableEq

/-- The error cases `Store.New` can surface. -/
inductive NewError where
  | get (msg : String)
  | dataTo
  | deserializeFailed
deriving DecidableEq

/-- `Store.New(r, name)`: resolve the cookie ID (errors ignored), treat a
missing or empty ID as a new session, treat Firestore NotFound as a new
session, propagate every other failure; on success populate the session
from the stored document.  Go returns `(session, err)`; both components
are modelled.  `get` is the Firestore collection's lookup, a function of
the document ID. -/
def StoreNew (cookie : Option String) (get : String → GetResult) (name : String) :
    Session × Option NewError :=
  let session := NewSession name
  let id := match readIDFromCookie cookie with
    | .ok v => v
    | .error _ => ""
  if id = "" then
    ({ session with isNew := true }, none)
  else
    match get id with
    | .notFound => ({ session with isNew := true }, none)
    | .err m => (session, some (.get m))
    | .found .malformed => (session, some .dataTo)
    | .found (.good enc) =>
      match deserialize enc with
      | none => (session, some .deserializeFailed)
      | some cached =>
        ({ session with
            id := cached.id,
            values := cached.values,
            options := cached.options,
            isNew := false }, none)

/-- The Firestore collections' contents: each `(collection, docID)` pair
maps to the stored `sessionDoc`'s `EncodedSession` string. -/
structure FirestoreState where
  docs : List ((String × String) × String)
deriving DecidableEq

/-- `Doc(id).Set(ctx, encoded)`: upsert of the document (last writer
wins). -/
def setDoc (st : FirestoreState) (name id enc : String) : FirestoreState :=
  ⟨((name, id), enc) :: st.docs.filter fun e => ¬e.1 = (name, id)⟩

/-- Document lookup in the modelled Firestore state. -/
def getDoc (st : FirestoreState) (name id : String) : Option String :=
  (st.docs.lookup (name, id))

/-- The error cases `Store.Save` can surface. -/
inductive SaveError where
  | serialize (e : SerializeError)
  | set (msg : String)
deriving DecidableEq

/-- The collaborators `Store.Save` consults: the request's cookie value
for the session name, the ID `NewDoc()` would allocate, and whether (and
how) `Set` fails. -/
structure SaveEnv where
  cookie : Option String
  newDocId : String
  setFails : Option String
deriving DecidableEq

/-- Everything observable after `Store.Save`: the Firestore state, the
response cookies written, the (ID-assigned) session, and the returned
error. -/
structure SaveResult where
  state : FirestoreState
  cookies : List Cookie
  session : Session
  error : Option SaveError

/-- `Store.Save(r, w, session)`: choose the ID (session's, else cookie's,
else a fresh document ID), assign it back onto the session, serialize,
write the document, then set the response cookie.  On a serialize or
`Set` error the function returns early: no document is written and no
cookie is set.  (A nil `Options` pointer would make `saveIDInCookie`
dereference nil in Go; that unreachable case sets no cookie here.) -/
def StoreSave (env : SaveEnv) (st : FirestoreState) (session : Session) : SaveResult :=
  let id0 := session.id
  let id1 := if id0 = "" then
      match readIDFromCookie env.cookie with
      | .ok v => v
      | .error _ => ""
    else id0
  let id := if id1 = "" then env.newDocId else id1
  let session := { session with id := id }
  match serialize session with
  | .error e => { state := st, cookies := [], session := session, error := some (.serialize e) }
  | .ok enc =>
    match env.setFails with
    | some m => { state := st, cookies := [], session := session, error := some (.set m) }
    | none =>
      { state := setDoc st session.name id enc,
        cookies := match session.options with
          | some o => [saveIDInCookie session.name id o]
          | none => [],
        session := session,
        error := none }

/-! ### Lemmas: decimal digits and number printing -/

/-- Does the input start with a decimal digit? -/
def headIsDigit : List Char → Bool
  | [] => false
  | c :: _ => isDigitChar c

theorem natToChars_succ (fuel m : Nat) (acc : List Char) :
    natToChars (fuel + 1) (m + 1) acc
      = natToChars fuel ((m + 1) / 10) (digitChar ((m + 1) % 10) :: acc) := rfl

theorem natToChars_append (fuel : Nat) : ∀ n acc,
    natToChars fuel n acc = natToChars fuel n [] ++ acc := by
  induction fuel with
  | zero => intro n acc; simp [natToChars]
  | succ fuel ih =>
    intro n acc
    cases n with
    | zero => simp [natToChars]
    | succ m =>
      rw [natToChars_succ, natToChars_succ,
        ih ((m + 1) / 10) (digitChar ((m + 1) % 10) :: acc),
        ih ((m + 1) / 10) [digitChar ((m + 1) % 10)]]
      simp

theorem natToChars_zero (fuel : Nat) : natToChars fuel 0 [] = [] := by
  cases fuel <;> simp [natToChars]

theorem charToDigit_digitChar {d : Nat} (h : d < 10) :
    charToDigit (digitChar d) = d := by
  interval_cases d <;> decide

theorem isDigitChar_digitChar {d : Nat} (h : d < 10) :
    isDigitChar (digitChar d) = true := by
  interval_cases d <;> decide

theorem digitsVal_append_one (ds : List Char) (c : Char) :
    digitsVal (ds ++ [c]) = 10 * digitsVal ds + charToDigit c := by
  simp [digitsVal, List.foldl_append]

theorem natToChars_spec (fuel : Nat) : ∀ n, 0 < n → n ≤ fuel →
    natToChars fuel n [] ≠ [] ∧
    (∀ c ∈ natToChars fuel n [], isDigitChar c = true) ∧
    digitsVal (natToChars fuel n []) = n := by
  induction fuel with
  | zero => intro n h0 hle; omega
  | succ fuel ih =>
    intro n h0 hle
    obtain ⟨m, rfl⟩ : ∃ m, n = m + 1 := ⟨n - 1, by omega⟩
    have hmod : (m + 1) % 10 < 10 := Nat.mod_lt _ (by omega)
    rw [natToChars_succ, natToChars_append]
    rcases Nat.eq_zero_or_pos ((m + 1) / 10) with hq | hq
    · rw [hq, natToChars_zero]
      refine ⟨by simp, ?_, ?_⟩
      · intro c hc
        simp at hc
        rw [hc]
        exact isDigitChar_digitChar hmod
      · have := Nat.div_add_mod (m + 1) 10
        simp [digitsVal, charToDigit_digitChar hmod]
        omega
    · have hqfuel : (m + 1) / 10 ≤ fuel := by
        have := Nat.div_lt_self (by omega : 0 < m + 1) (by omega : 1 < 10)
        omega
      obtain ⟨hne, hdig, hval⟩ := ih _ hq hqfuel
      refine ⟨by simp [hne], ?_, ?_⟩
      · intro c hc
        rcases List.mem_append.mp hc with hc | hc
        · exact hdig c hc
        · simp at hc
          rw [hc]
          exact isDigitChar_digitChar hmod
      · rw [digitsVal_append_one, hval, charToDigit_digitChar hmod]
        have := Nat.div_add_mod (m + 1) 10
        omega

theorem printNat_spec (n : Nat) :
    printNat n ≠ [] ∧
    (∀ c ∈ printNat n, isDigitChar c = true) ∧
    digitsVal (printNat n) = n := by
  rcases Nat.eq_zero_or_pos n with rfl | hn
  · refine ⟨by simp [printNat], ?_, by decide⟩
    intro c hc
    simp [printNat] at hc
    rw [hc]; decide
  · have h := natToChars_spec n n hn le_rfl
    simpa [printNat, Nat.pos_iff_ne_zero.mp hn] using h

theorem takeDigits_split : ∀ ds rest, (∀ c ∈ ds, isDigitChar c = true) →
    headIsDigit rest = false → takeDigits (ds ++ rest) = (ds, rest) := by
  intro ds
  induction ds with
  | nil =>
    intro rest _ hrest
    cases rest with
    | nil => rfl
    | cons c cs =>
      simp [headIsDigit] at hrest
      simp [takeDigits, hrest]
  | cons d ds ih =>
    intro rest hds hrest
    have hd : isDigitChar d = true := hds d (by simp)
    have hds' : ∀ c ∈ ds, isDigitChar c = true := fun c hc => hds c (by simp [hc])
    simp [takeDigits, hd, ih rest hds' hrest]

/-! ### Lemmas: string escaping and literal matching -/

theorem dropLit_self : ∀ ps rest, dropLit ps (ps ++ rest) = some rest := by
  intro ps
  induction ps with
  | nil => intro rest; rfl
  | cons p ps ih => intro rest; simp [dropLit, ih]

theorem stringMkData (s : String) : (⟨s.data⟩ : String) = s := rfl

theorem parseStringChars_quote (rest : List Char) :
    parseStringChars ('"' :: rest) = some ([], rest) := by
  rw [parseStringChars.eq_def]; rfl

theorem parseStringChars_backslash (e : Char) (rest : List Char) :
    parseStringChars ('\\' :: e :: rest)
      = (parseStringChars rest).map fun p => (e :: p.1, p.2) := by
  rw [parseStringChars.eq_def]; rfl

theorem parseStringChars_other {c : Char} (h1 : c ≠ '"') (h2 : c ≠ '\\') (rest : List Char) :
    parseStringChars (c :: rest)
      = (parseStringChars rest).map fun p => (c :: p.1, p.2) := by
  rw [parseStringChars.eq_def]
  simp [h1, h2]

theorem parseStringChars_escape : ∀ cs rest,
    parseStringChars (escapeString cs ++ '"' :: rest) = some (cs, rest) := by
  intro cs
  induction cs with
  | nil => intro rest; simpa [escapeString] using parseStringChars_quote rest
  | cons c cs ih =>
    intro rest
    by_cases hc : c = '"' ∨ c = '\\'
    · have h1 : escapeChar c = ['\\', c] := by simp [escapeChar, hc]
      simp [escapeString, h1, parseStringChars_backslash, ih]
    · have h1 : escapeChar c = [c] := by simp [escapeChar, hc]
      push_neg at hc
      simp [escapeString, h1, parseStringChars_other hc.1 hc.2, ih]

/-! ### Lemmas: the first character of printed JSON -/

/-- The characters a printed JSON value can start with. -/
def jsonStart (c : Char) : Bool :=
  c = 'n' || c = 't' || c = 'f' || c = '"' || c = '[' || c = '{' || c = '-' || isDigitChar c

theorem printNat_head (n : Nat) :
    ∃ c cs, printNat n = c :: cs ∧ isDigitChar c = true := by
  obtain ⟨hne, hdig, -⟩ := printNat_spec n
  cases h : printNat n with
  | nil => exact absurd h hne
  | cons c cs => exact ⟨c, cs, rfl, hdig c (by rw [h]; simp)⟩

theorem printValue_head (v : JValue) :
    ∃ c cs, printValue v = c :: cs ∧ jsonStart c = true := by
  cases v with
  | null => exact ⟨'n', _, rfl, by decide⟩
  | bool b =>
    cases b with
    | false => exact ⟨'f', _, rfl, by decide⟩
    | true => exact ⟨'t', _, rfl, by decide⟩
  | num n => cases n with
    | ofNat m =>
      obtain ⟨c, cs, hp, hc⟩ := printNat_head m
      refine ⟨c, cs, ?_, by simp [jsonStart, hc]⟩
      simpa [printValue, printInt] using hp
    | negSucc m => exact ⟨'-', _, rfl, by decide⟩
  | str s => exact ⟨'"', _, rfl, by decide⟩
  | arr es => exact ⟨'[', _, rfl, by decide⟩
  | obj fs => exact ⟨'{', _, rfl, by decide⟩

theorem isDigitChar_ne {c : Char} (h : isDigitChar c = true) :
    'n' ≠ c ∧ 't' ≠ c ∧ 'f' ≠ c ∧ '"' ≠ c ∧ '[' ≠ c ∧ '{' ≠ c ∧ '-' ≠ c := by
  refine ⟨?_, ?_, ?_, ?_, ?_, ?_, ?_⟩ <;> rintro rfl <;> revert h <;> decide

theorem jsonStart_ne_close {c : Char} (h : jsonStart c = true) :
    c ≠ ']' ∧ c ≠ '}' ∧ c ≠ ',' := by
  refine ⟨?_, ?_, ?_⟩ <;> rintro rfl <;> revert h <;> decide

/-! ### Sizes: fuel needed to parse a printed value -/

mutual
/-- Number of JSON nodes in a value: a lower bound for the parser fuel. -/
def jsize : (v : JValue) → Nat
  | .arr es => 1 + asize es
  | .obj fs => 1 + osize fs
  | _ => 1
termination_by structural v => v

/-- Total node count of array elements. -/
def asize : (es : JArray) → Nat
  | .nil => 0
  | .cons v tl => 1 + jsize v + asize tl
termination_by structural es => es

/-- Total node count of object fields. -/
def osize : (fs : JObject) → Nat
  | .nil => 0
  | .cons _ v tl => 1 + jsize v + osize tl
termination_by structural fs => fs
end

theorem jsize_pos (v : JValue) : 1 ≤ jsize v := by
  cases v <;> simp [jsize]

/-! ### The parser inverts the printer -/


theorem printElemsTail_cons (a : JValue) (b : JArray) :
    printElemsTail (.cons a b) = ',' :: printElems (.cons a b) := rfl

theorem printFieldsTail_cons (k : String) (v : JValue) (tl : JObject) :
    printFieldsTail (.cons k v tl) = ',' :: printFields (.cons k v tl) := rfl

theorem parse_print (fuel : Nat) :
    (∀ v rest, jsize v ≤ fuel → headIsDigit rest = false →
      parseValue fuel (printValue v ++ rest) = some (v, rest)) ∧
    (∀ es rest, es ≠ .nil → asize es ≤ fuel →
      parseElems fuel (printElems es ++ ']' :: rest) = some (es, ']' :: rest)) ∧
    (∀ fs rest, fs ≠ .nil → osize fs ≤ fuel →
      parseFields fuel (printFields fs ++ '}' :: rest) = some (fs, '}' :: rest)) := by
  induction fuel with
  | zero =>
    refine ⟨fun v rest hv _ => absurd hv (by have := jsize_pos v; omega), ?_, ?_⟩
    · intro es rest hne hs
      cases es with
      | nil => exact absurd rfl hne
      | cons v tl =>
        have := jsize_pos v
        simp [asize] at hs
    · intro fs rest hne hs
      cases fs with
      | nil => exact absurd rfl hne
      | cons k v tl =>
        have := jsize_pos v
        simp [osize] at hs
  | succ fuel ih =>
    obtain ⟨ih1, ih2, ih3⟩ := ih
    refine ⟨?_, ?_, ?_⟩
    · -- values
      intro v rest hv hrest
      cases v with
      | null =>
        show parseValue (fuel + 1) ('n' :: 'u' :: 'l' :: 'l' :: rest) = _
        rw [parseValue.eq_def]
        simp [dropLit]
      | bool b =>
        cases b with
        | true =>
          show parseValue (fuel + 1) ('t' :: 'r' :: 'u' :: 'e' :: rest) = _
          rw [parseValue.eq_def]
          simp [dropLit]
        | false =>
          show parseValue (fuel + 1) ('f' :: 'a' :: 'l' :: 's' :: 'e' :: rest) = _
          rw [parseValue.eq_def]
          simp [dropLit]
      | str s =>
        show parseValue (fuel + 1) ('"' :: ((escapeString s.data ++ ['"']) ++ rest)) = _
        rw [parseValue.eq_def]
        have h := parseStringChars_escape s.data rest
        simp only [List.append_assoc, List.cons_append, List.nil_append]
        simp [h, stringMkData]
      | num n =>
        cases n with
        | ofNat m =>
          obtain ⟨hne, hdig, hval⟩ := printNat_spec m
          cases h : printNat m with
          | nil => exact absurd h hne
          | cons d ds =>
            have hd : isDigitChar d = true := hdig d (by rw [h]; simp)
            obtain ⟨hn, ht, hf, hq, hlb, hob, hm⟩ := isDigitChar_ne hd
            have htd : takeDigits ((d :: ds) ++ rest) = (d :: ds, rest) :=
              takeDigits_split _ _ (by rw [← h]; exact hdig) hrest
            show parseValue (fuel + 1) (printNat m ++ rest) = _
            rw [h]
            show parseValue (fuel + 1) (d :: (ds ++ rest)) = _
            rw [parseValue.eq_def]
            simp only [if_neg hn.symm, if_neg ht.symm, if_neg hf.symm, if_neg hq.symm,
              if_neg hlb.symm, if_neg hob.symm, if_neg hm.symm, if_pos hd]
            have : d :: (ds ++ rest) = (d :: ds) ++ rest := rfl
            rw [this, htd]
            rw [h] at hval
            simp [hval]
        | negSucc m =>
          obtain ⟨hne, hdig, hval⟩ := printNat_spec (m + 1)
          have htd := takeDigits_split (printNat (m + 1)) rest hdig hrest
          show parseValue (fuel + 1) ('-' :: (printNat (m + 1) ++ rest)) = _
          rw [parseValue.eq_def]
          simp only [List.cons_append]
          simp [htd, hne, hval, Int.negSucc_eq]
      | arr es =>
        cases es with
        | nil =>
          show parseValue (fuel + 1) ('[' :: ']' :: rest) = _
          rw [parseValue.eq_def]
          simp [printElems]
        | cons v tl =>
          have hsz : asize (.cons v tl) ≤ fuel := by
            simp [jsize] at hv; omega
          have hp := ih2 (.cons v tl) rest (by simp) hsz
          obtain ⟨c0, cs0, hhead, hstart⟩ := printValue_head v
          obtain ⟨hc1, hc2, hc3⟩ := jsonStart_ne_close hstart
          show parseValue (fuel + 1)
            ('[' :: ((printElems (.cons v tl) ++ [']']) ++ rest)) = _
          rw [parseValue.eq_def]
          have hshape : (printElems (.cons v tl) ++ [']']) ++ rest
              = printElems (.cons v tl) ++ ']' :: rest := by simp
          rw [hshape]
          have hhd : (printElems (.cons v tl) ++ ']' :: rest).head? = some c0 := by
            simp [printElems, hhead]
          simp only [hhd]
          simp [hc1, hp]
      | obj fs =>
        cases fs with
        | nil =>
          show parseValue (fuel + 1) ('{' :: '}' :: rest) = _
          rw [parseValue.eq_def]
          simp [printFields]
        | cons k v tl =>
          have hsz : osize (.cons k v tl) ≤ fuel := by
            simp [jsize] at hv; omega
          have hp := ih3 (.cons k v tl) rest (by simp) hsz
          show parseValue (fuel + 1)
            ('{' :: ((printFields (.cons k v tl) ++ ['}']) ++ rest)) = _
          rw [parseValue.eq_def]
          have hshape : (printFields (.cons k v tl) ++ ['}']) ++ rest
              = printFields (.cons k v tl) ++ '}' :: rest := by simp
          rw [hshape]
          have hhd : (printFields (.cons k v tl) ++ '}' :: rest).head? = some '"' := by
            simp [printFields]
          simp only [hhd]
          simp [hp]
    · -- array elements
      intro es rest hne hs
      cases es with
      | nil => exact absurd rfl hne
      | cons v tl =>
        have hszv : jsize v ≤ fuel := by simp [asize] at hs; omega
        rw [parseElems.eq_def]
        cases tl with
        | nil =>
          have h1 := ih1 v (']' :: rest) hszv (by simp [headIsDigit]; decide)
          show (parseValue fuel (printElems (.cons v .nil) ++ ']' :: rest)).bind _ = _
          have hshape : printElems (.cons v .nil) ++ ']' :: rest
              = printValue v ++ ']' :: rest := by simp [printElems, printElemsTail]
          rw [hshape, h1]
          simp
        | cons v2 tl2 =>
          have hsztl : asize (.cons v2 tl2) ≤ fuel := by simp [asize] at hs ⊢; omega
          have h2 := ih2 (.cons v2 tl2) rest (by simp) hsztl
          have h1 := ih1 v (',' :: (printElems (.cons v2 tl2) ++ ']' :: rest)) hszv
            (by simp [headIsDigit]; decide)
          show (parseValue fuel (printElems (.cons v (.cons v2 tl2)) ++ ']' :: rest)).bind _ = _
          have hshape : printElems (.cons v (.cons v2 tl2)) ++ ']' :: rest
              = printValue v ++ ',' :: (printElems (.cons v2 tl2) ++ ']' :: rest) := by
            simp [printElems, printElemsTail_cons]
          rw [hshape, h1]
          simp [h2]
    · -- object fields
      intro fs rest hne hs
      cases fs with
      | nil => exact absurd rfl hne
      | cons k v tl =>
        have hszv : jsize v ≤ fuel := by simp [osize] at hs; omega
        rw [parseFields.eq_def]
        cases tl with
        | nil =>
          have h1 := ih1 v ('}' :: rest) hszv (by simp [headIsDigit]; decide)
          have hshape : printFields (.cons k v .nil) ++ '}' :: rest
              = '"' :: (escapeString k.data ++ '"' :: ':' :: (printValue v ++ '}' :: rest)) := by
            simp [printFields, printFieldsTail]
          rw [hshape]
          have hstr := parseStringChars_escape k.data (':' :: (printValue v ++ '}' :: rest))
          simp only [hstr, Option.some_bind]
          rw [h1]
          simp [stringMkData]
        | cons k2 v2 tl2 =>
          have hsztl : osize (.cons k2 v2 tl2) ≤ fuel := by simp [osize] at hs ⊢; omega
          have h3 := ih3 (.cons k2 v2 tl2) rest (by simp) hsztl
          have h1 := ih1 v (',' :: (printFields (.cons k2 v2 tl2) ++ '}' :: rest)) hszv
            (by simp [headIsDigit]; decide)
          have hshape : printFields (.cons k v (.cons k2 v2 tl2)) ++ '}' :: rest
              = '"' :: (escapeString k.data ++ '"' :: ':' ::
                  (printValue v ++ ',' :: (printFields (.cons k2 v2 tl2) ++ '}' :: rest))) := by
            simp [printFields, printFieldsTail_cons]
          rw [hshape]
          have hstr := parseStringChars_escape k.data
            (':' :: (printValue v ++ ',' :: (printFields (.cons k2 v2 tl2) ++ '}' :: rest)))
          simp only [hstr, Option.some_bind]
          rw [h1]
          simp [h3, stringMkData]



theorem jsize_le_printLength (n : Nat) :
    (∀ v, jsize v ≤ n → jsize v ≤ (printValue v).length) ∧
    (∀ es, asize es ≤ n → asize es ≤ (printElemsTail es).length ∧
      asize es ≤ (printElems es).length + 1) ∧
    (∀ fs, osize fs ≤ n → osize fs ≤ (printFieldsTail fs).length ∧
      osize fs ≤ (printFields fs).length + 1) := by
  induction n with
  | zero =>
    refine ⟨fun v hv => absurd hv (by have := jsize_pos v; omega), ?_, ?_⟩
    · intro es hs
      cases es with
      | nil => simp [asize, printElemsTail, printElems]
      | cons v tl => have := jsize_pos v; simp [asize] at hs
    · intro fs hs
      cases fs with
      | nil => simp [osize, printFieldsTail, printFields]
      | cons k v tl => have := jsize_pos v; simp [osize] at hs
  | succ n ih =>
    obtain ⟨ih1, ih2, ih3⟩ := ih
    refine ⟨?_, ?_, ?_⟩
    · intro v hv
      cases v with
      | null => simp [jsize, printValue]
      | bool b => cases b <;> simp [jsize, printValue]
      | num m =>
        obtain ⟨c, cs, hp, -⟩ := printValue_head (.num m)
        rw [hp]
        simp [jsize]
      | str s => simp [jsize, printValue]
      | arr es =>
        have hs : asize es ≤ n := by simp [jsize] at hv; omega
        have := (ih2 es hs).2
        simp [jsize, printValue]
        omega
      | obj fs =>
        have hs : osize fs ≤ n := by simp [jsize] at hv; omega
        have := (ih3 fs hs).2
        simp [jsize, printValue]
        omega
    · intro es hs
      cases es with
      | nil => simp [asize, printElemsTail, printElems]
      | cons v tl =>
        have hv : jsize v ≤ n := by simp [asize] at hs; omega
        have htl : asize tl ≤ n := by simp [asize] at hs; omega
        have h1 := ih1 v hv
        have h2 := (ih2 tl htl).1
        constructor
        · simp [asize, printElemsTail, printElems]
          omega
        · simp [asize, printElems]
          omega
    · intro fs hs
      cases fs with
      | nil => simp [osize, printFieldsTail, printFields]
      | cons k v tl =>
        have hv : jsize v ≤ n := by simp [osize] at hs; omega
        have htl : osize tl ≤ n := by simp [osize] at hs; omega
        have h1 := ih1 v hv
        have h2 := (ih3 tl htl).1
        constructor
        · simp [osize, printFieldsTail, printFields]
          omega
        · simp [osize, printFields]
          omega

theorem parseTopLevel_printValue (v : JValue) :
    parseTopLevel (printValue v) = some v := by
  have hfuel : jsize v ≤ (printValue v).length + 1 := by
    have := (jsize_le_printLength (jsize v)).1 v le_rfl
    omega
  have h := (parse_print ((printValue v).length + 1)).1 v [] hfuel (by decide)
  rw [List.append_nil] at h
  simp [parseTopLevel, h]



theorem unmarshal_marshal (d : JsonSession) :
    unmarshalJsonSession (marshalJsonSession d) = some d := by
  obtain ⟨values, id, options⟩ := d
  rw [marshalJsonSession, unmarshalJsonSession, parseTopLevel_printValue]
  cases options with
  | none =>
    simp [lookupLast, decodeValuesField, decodeStringField, decodeOptionsField]
  | some o =>
    simp [lookupLast, decodeValuesField, decodeStringField, decodeOptionsField,
      decodeOptionsObj, decodeIntField, decodeBoolField, optionsToJValue]

/-! ### The values map: copy loop, sorted insertion, lookups -/


/-- Go-map-style first-match lookup on a string-keyed association list. -/
def lookupL : List (String × JValue) → String → Option JValue
  | [], _ => none
  | kv :: rest, k => if kv.1 = k then some kv.2 else lookupL rest k

/-- One step of the `serialize` copy loop. -/
def insStep (m : JObject) (kv : String × JValue) : JObject :=
  insertValue m kv.1 kv.2

theorem collectValues_strKeyed : ∀ (l : List (String × JValue)) (acc : JObject),
    collectValues (strKeyed l) acc = .ok (l.foldl insStep acc) := by
  intro l
  induction l with
  | nil => intro acc; rfl
  | cons kv rest ih =>
    intro acc
    simp [strKeyed, collectValues, List.foldl_cons] at ih ⊢
    exact ih _

theorem collectValues_err : ∀ (l : List (GoKey × JValue)) (acc : JObject),
    (∃ kv ∈ l, kv.1.isStr = false) →
    ∃ k, GoKey.isStr k = false ∧ collectValues l acc = .error (.keyNotString k) := by
  intro l
  induction l with
  | nil => intro acc h; simp at h
  | cons kv rest ih =>
    intro acc h
    obtain ⟨k0, v0⟩ := kv
    cases k0 with
    | str s =>
      have h' : ∃ kv ∈ rest, kv.1.isStr = false := by
        rcases h with ⟨kv', hkv', hbad⟩
        rcases List.mem_cons.mp hkv' with rfl | hmem
        · simp [GoKey.isStr] at hbad
        · exact ⟨kv', hmem, hbad⟩
      simpa [collectValues] using ih _ h'
    | int n => exact ⟨.int n, rfl, by simp [collectValues]⟩
    | bool b => exact ⟨.bool b, rfl, by simp [collectValues]⟩

/-! ### The key order used by sorted insertion -/

theorem char_eq_of_toNat_eq {a b : Char} (h : a.toNat = b.toNat) : a = b :=
  Char.eq_of_val_eq (UInt32.eq_of_toBitVec_eq (BitVec.eq_of_toNat_eq h))

theorem charListLt_irrefl : ∀ l : List Char, charListLt l l = false
  | [] => rfl
  | a :: as => by simp [charListLt, charListLt_irrefl as]

theorem charListLt_asymm : ∀ l1 l2 : List Char,
    charListLt l1 l2 = true → charListLt l2 l1 = false
  | [], [], h => by simp [charListLt] at h
  | _ :: _, [], h => by simp [charListLt] at h
  | [], _ :: _, _ => rfl
  | a :: as, b :: bs, h => by
    simp only [charListLt] at h ⊢
    rcases Nat.lt_trichotomy a.toNat b.toNat with hab | hab | hab
    · rw [if_neg (by omega), if_pos hab]
    · rw [if_neg (by omega), if_neg (by omega)] at h
      rw [if_neg (by omega), if_neg (by omega)]
      exact charListLt_asymm as bs h
    · rw [if_neg (by omega), if_pos hab] at h
      exact absurd h (by simp)

theorem charListLt_trans : ∀ l1 l2 l3 : List Char,
    charListLt l1 l2 = true → charListLt l2 l3 = true → charListLt l1 l3 = true
  | _, [], _, h1, _ => by simp [charListLt] at h1
  | _, _ :: _, [], _, h2 => by simp [charListLt] at h2
  | [], _ :: _, _ :: _, _, _ => rfl
  | a :: as, b :: bs, c :: cs, h1, h2 => by
    simp only [charListLt] at h1 h2 ⊢
    rcases Nat.lt_trichotomy a.toNat b.toNat with hab | hab | hab <;>
      rcases Nat.lt_trichotomy b.toNat c.toNat with hbc | hbc | hbc
    · rw [if_pos (by omega)]
    · rw [if_pos (by omega)]
    · rw [if_neg (by omega), if_pos hbc] at h2
      exact absurd h2 (by simp)
    · rw [if_pos (by omega)]
    · rw [if_neg (by omega), if_neg (by omega)] at h1
      rw [if_neg (by omega), if_neg (by omega)] at h2
      rw [if_neg (by omega), if_neg (by omega)]
      exact charListLt_trans as bs cs h1 h2
    · rw [if_neg (by omega), if_pos hbc] at h2
      exact absurd h2 (by simp)
    · rw [if_neg (by omega), if_pos hab] at h1
      exact absurd h1 (by simp)
    · rw [if_neg (by omega), if_pos hab] at h1
      exact absurd h1 (by simp)
    · rw [if_neg (by omega), if_pos hab] at h1
      exact absurd h1 (by simp)

theorem charListLt_conn : ∀ l1 l2 : List Char,
    charListLt l1 l2 = false → charListLt l2 l1 = false → l1 = l2
  | [], [], _, _ => rfl
  | _ :: _, [], _, h2 => by simp [charListLt] at h2
  | [], _ :: _, h1, _ => by simp [charListLt] at h1
  | a :: as, b :: bs, h1, h2 => by
    simp only [charListLt] at h1 h2
    rcases Nat.lt_trichotomy a.toNat b.toNat with hab | hab | hab
    · rw [if_pos hab] at h1
      exact absurd h1 (by simp)
    · rw [if_neg (by omega), if_neg (by omega)] at h1
      rw [if_neg (by omega), if_neg (by omega)] at h2
      have ha := char_eq_of_toNat_eq hab
      subst ha
      rw [charListLt_conn as bs h1 h2]
    · rw [if_pos hab] at h2
      exact absurd h2 (by simp)

theorem strLt_irrefl (a : String) : strLt a a = false := charListLt_irrefl a.data

theorem strLt_asymm {a b : String} (h : strLt a b = true) : strLt b a = false :=
  charListLt_asymm a.data b.data h

theorem strLt_trans {a b c : String} (h1 : strLt a b = true) (h2 : strLt b c = true) :
    strLt a c = true :=
  charListLt_trans a.data b.data c.data h1 h2

theorem strLt_ne {a b : String} (h : strLt a b = true) : a ≠ b := by
  intro heq
  subst heq
  rw [strLt_irrefl] at h
  cases h

theorem strLt_trichotomy (a b : String) :
    strLt a b = true ∨ a = b ∨ strLt b a = true := by
  cases hab : strLt a b with
  | true => exact Or.inl rfl
  | false =>
    cases hba : strLt b a with
    | true => exact Or.inr (Or.inr rfl)
    | false =>
      refine Or.inr (Or.inl ?_)
      have hdata : a.data = b.data := charListLt_conn a.data b.data hab hba
      cases a
      cases b
      exact congrArg String.mk hdata

theorem insertValue_lt {k0 k : String} (v0 v : JValue) (tl : JObject)
    (h : strLt k k0 = true) :
    insertValue (.cons k0 v0 tl) k v = .cons k v (.cons k0 v0 tl) := by
  rw [insertValue.eq_def]
  simp [h]

theorem insertValue_eq {k0 k : String} (v0 v : JValue) (tl : JObject) (h : k = k0) :
    insertValue (.cons k0 v0 tl) k v = .cons k v tl := by
  rw [insertValue.eq_def]
  simp [h, strLt_irrefl]

theorem insertValue_gt {k0 k : String} (v0 v : JValue) (tl : JObject)
    (h : strLt k0 k = true) :
    insertValue (.cons k0 v0 tl) k v = .cons k0 v0 (insertValue tl k v) := by
  rw [insertValue.eq_def]
  simp [strLt_asymm h, (strLt_ne h).symm]

theorem lookupStr_insertValue : ∀ (m : JObject) (k : String) (v : JValue) (j : String),
    lookupStr (insertValue m k v) j = if k = j then some v else lookupStr m j
  | .nil, k, v, j => by simp [insertValue, lookupStr]
  | .cons k0 v0 tl, k, v, j => by
    rcases strLt_trichotomy k k0 with hlt | heq | hgt
    · rw [insertValue_lt _ _ _ hlt]
      simp [lookupStr]
    · rw [insertValue_eq _ _ _ heq]
      subst heq
      by_cases hj : k = j <;> simp [lookupStr, hj]
    · rw [insertValue_gt _ _ _ hgt]
      by_cases hj : k0 = j
      · subst hj
        have hne : k ≠ k0 := (strLt_ne hgt).symm
        simp [lookupStr, lookupStr_insertValue tl k v k0, hne]
      · simp [lookupStr, hj, lookupStr_insertValue tl k v j]
termination_by structural m => m


theorem lookupStr_foldl_notmem : ∀ (l : List (String × JValue)) (acc : JObject) (j : String),
    (∀ kv ∈ l, kv.1 ≠ j) → lookupStr (l.foldl insStep acc) j = lookupStr acc j := by
  intro l
  induction l with
  | nil => intro acc j _; rfl
  | cons kv rest ih =>
    intro acc j h
    have hkv : kv.1 ≠ j := h kv (by simp)
    have hrest : ∀ kv' ∈ rest, kv'.1 ≠ j := fun kv' hm => h kv' (by simp [hm])
    rw [List.foldl_cons, ih _ _ hrest]
    simp [insStep, lookupStr_insertValue, hkv]

theorem lookupL_eq_none : ∀ (l : List (String × JValue)) (j : String),
    (∀ kv ∈ l, kv.1 ≠ j) → lookupL l j = none := by
  intro l
  induction l with
  | nil => intro j _; rfl
  | cons kv rest ih =>
    intro j h
    have h1 : kv.1 ≠ j := h kv (by simp)
    have h2 : ∀ kv' ∈ rest, kv'.1 ≠ j := fun kv' hm => h kv' (by simp [hm])
    simp [lookupL, h1, ih j h2]

theorem lookupStr_foldl : ∀ (l : List (String × JValue)) (acc : JObject) (j : String),
    (l.map Prod.fst).Nodup →
    lookupStr (l.foldl insStep acc) j
      = match lookupL l j with
        | some v => some v
        | none => lookupStr acc j := by
  intro l
  induction l with
  | nil => intro acc j _; rfl
  | cons kv rest ih =>
    intro acc j hnd
    rw [List.map_cons, List.nodup_cons] at hnd
    obtain ⟨hnotin, hnd2⟩ := hnd
    rw [List.foldl_cons, ih _ j hnd2]
    by_cases hj : kv.1 = j
    · subst hj
      have hnm : ∀ kv' ∈ rest, kv'.1 ≠ kv.1 := by
        intro kv' hm heq
        exact hnotin (heq ▸ List.mem_map_of_mem Prod.fst hm)
      rw [lookupL_eq_none rest kv.1 hnm]
      simp [lookupL, insStep, lookupStr_insertValue]
    · have hL : lookupL (kv :: rest) j = lookupL rest j := by simp [lookupL, hj]
      rw [hL]
      cases lookupL rest j with
      | some v => rfl
      | none => simp [insStep, lookupStr_insertValue, hj]


theorem lookupG_strKeyed_str : ∀ (l : List (String × JValue)) (k : String),
    lookupG (strKeyed l) (.str k) = lookupL l k := by
  intro l
  induction l with
  | nil => intro k; rfl
  | cons kv rest ih =>
    intro k
    by_cases h : kv.1 = k
    · simp [strKeyed, lookupG, lookupL, h]
    · have h2 : ¬(GoKey.str kv.1 = GoKey.str k) := by simp [h]
      simp only [strKeyed, List.map_cons, lookupG, lookupL, if_neg h, if_neg h2]
      exact ih k

theorem lookupG_strKeyed_nonstr : ∀ (l : List (String × JValue)) (k : GoKey),
    k.isStr = false → lookupG (strKeyed l) k = none := by
  intro l
  induction l with
  | nil => intro k _; rfl
  | cons kv rest ih =>
    intro k hk
    have h2 : ¬(GoKey.str kv.1 = k) := by
      intro h
      rw [← h] at hk
      simp [GoKey.isStr] at hk
    simp only [strKeyed, List.map_cons, lookupG, if_neg h2]
    exact ih k hk

theorem lookupG_objToGoValues_str : ∀ (m : JObject) (k : String),
    lookupG (objToGoValues m) (.str k) = lookupStr m k
  | .nil, k => rfl
  | .cons k0 v0 tl, k => by
    by_cases h : k0 = k
    · simp [objToGoValues, lookupG, lookupStr, h]
    · have h2 : ¬(GoKey.str k0 = GoKey.str k) := by simp [h]
      simp only [objToGoValues, lookupG, lookupStr, if_neg h, if_neg h2]
      exact lookupG_objToGoValues_str tl k
termination_by structural m => m

theorem lookupG_objToGoValues_nonstr : ∀ (m : JObject) (k : GoKey),
    k.isStr = false → lookupG (objToGoValues m) k = none
  | .nil, k, _ => rfl
  | .cons k0 v0 tl, k, hk => by
    have h2 : ¬(GoKey.str k0 = k) := by
      intro h
      rw [← h] at hk
      simp [GoKey.isStr] at hk
    simp only [objToGoValues, lookupG, if_neg h2]
    exact lookupG_objToGoValues_nonstr tl k hk
termination_by structural m => m

theorem objToGoValues_isStr : ∀ (m : JObject), ∀ kv ∈ objToGoValues m, kv.1.isStr = true
  | .nil, kv, hm => by simp [objToGoValues] at hm
  | .cons k0 v0 tl, kv, hm => by
    rcases List.mem_cons.mp hm with rfl | hm2
    · rfl
    · exact objToGoValues_isStr tl kv hm2
termination_by structural m => m

theorem insertValue_comm : ∀ (m : JObject) (k j : String) (v w : JValue), j ≠ k →
    insertValue (insertValue m k v) j w = insertValue (insertValue m j w) k v
  | .nil, k, j, v, w, hjk => by
    show insertValue (.cons k v .nil) j w = insertValue (.cons j w .nil) k v
    rcases strLt_trichotomy j k with h | h | h
    · rw [insertValue_lt _ _ _ h, insertValue_gt _ _ _ h]
      show _ = JObject.cons j w (insertValue JObject.nil k v)
      rfl
    · exact absurd h hjk
    · rw [insertValue_gt _ _ _ h, insertValue_lt _ _ _ h]
      rfl
  | .cons k0 v0 tl, k, j, v, w, hjk => by
    rcases strLt_trichotomy k k0 with hk | hk | hk <;>
      rcases strLt_trichotomy j k0 with hj | hj | hj
    · -- k < k0, j < k0
      rw [insertValue_lt v0 v tl hk, insertValue_lt v0 w tl hj]
      rcases strLt_trichotomy j k with h | h | h
      · rw [insertValue_lt _ _ _ h, insertValue_gt _ _ _ h, insertValue_lt v0 v tl hk]
      · exact absurd h hjk
      · rw [insertValue_gt _ _ _ h, insertValue_lt _ _ _ hj, insertValue_lt _ _ _ h]
    · -- k < k0, j = k0
      subst hj
      rw [insertValue_lt v0 v tl hk, insertValue_eq v0 w tl rfl,
        insertValue_gt _ _ _ hk, insertValue_eq v0 w tl rfl, insertValue_lt w v tl hk]
    · -- k < k0, j > k0
      rw [insertValue_lt v0 v tl hk, insertValue_gt v0 w tl hj,
        insertValue_gt _ _ _ (strLt_trans hk hj), insertValue_gt v0 w tl hj,
        insertValue_lt _ _ _ hk]
    · -- k = k0, j < k0
      subst hk
      rw [insertValue_eq v0 v tl rfl, insertValue_lt v0 w tl hj,
        insertValue_lt v w tl hj, insertValue_gt _ _ _ hj, insertValue_eq v0 v tl rfl]
    · -- k = k0, j = k0: j = k, contradiction
      exact absurd (hk.trans hj.symm).symm hjk
    · -- k = k0, j > k0
      subst hk
      rw [insertValue_eq v0 v tl rfl, insertValue_gt v0 w tl hj,
        insertValue_gt v w tl hj, insertValue_eq v0 v (insertValue tl j w) rfl]
    · -- k > k0, j < k0
      rw [insertValue_gt v0 v tl hk, insertValue_lt v0 w tl hj,
        insertValue_lt v0 w (insertValue tl k v) hj,
        insertValue_gt w v (JObject.cons k0 v0 tl) (strLt_trans hj hk),
        insertValue_gt v0 v tl hk]
    · -- k > k0, j = k0
      subst hj
      rw [insertValue_gt v0 v tl hk, insertValue_eq v0 w (insertValue tl k v) rfl,
        insertValue_eq v0 w tl rfl, insertValue_gt w v tl hk]
    · -- k > k0, j > k0
      rw [insertValue_gt v0 v tl hk, insertValue_gt v0 w tl hj,
        insertValue_gt _ _ _ hj, insertValue_gt _ _ _ hk,
        insertValue_comm tl k j v w hjk]
termination_by structural m => m


theorem foldl_insStep_perm : ∀ {l₁ l₂ : List (String × JValue)}, l₁.Perm l₂ →
    (l₁.map Prod.fst).Nodup → ∀ acc, l₁.foldl insStep acc = l₂.foldl insStep acc := by
  intro l₁ l₂ hp
  induction hp with
  | nil => intro _ acc; rfl
  | cons x p ih =>
    intro hnd acc
    rw [List.map_cons, List.nodup_cons] at hnd
    simp only [List.foldl_cons]
    exact ih hnd.2 (insStep acc x)
  | swap x y l =>
    intro hnd acc
    have hxy : x.1 ≠ y.1 := by
      rw [List.map_cons, List.map_cons, List.nodup_cons] at hnd
      intro h
      exact hnd.1 (by simp [h])
    simp only [List.foldl_cons]
    have : insStep (insStep acc y) x = insStep (insStep acc x) y :=
      insertValue_comm acc y.1 x.1 y.2 x.2 hxy
    rw [this]
  | trans p₁ p₂ ih₁ ih₂ =>
    intro hnd acc
    have hnd₂ : (_ : List String).Nodup := ((p₁.map Prod.fst).nodup_iff).mp hnd
    rw [ih₁ hnd acc, ih₂ hnd₂ acc]

/-! ### Claims -/

/-- Claim C1: for every session whose values map has only string keys (with no
duplicate keys, as in a Go map) and whose serialized form is accepted by
`serialize`, `deserialize` of the serialized string succeeds and returns a
session equal to the original in ID, values map (pointwise lookup), and
options. -/
theorem serialize_deserialize_roundtrip (s : Session) (l : List (String × JValue))
    (enc : String) (hl : s.values = strKeyed l) (hnd : (l.map Prod.fst).Nodup)
    (henc : serialize s = .ok enc) :
    ∃ s', deserialize enc = some s' ∧ s'.id = s.id ∧ s'.options = s.options ∧
      ∀ k, lookupG s'.values k = lookupG s.values k := by
  rw [serialize, hl, collectValues_strKeyed] at henc
  dsimp only at henc
  by_cases hlen :
      (marshalJsonSession
        { values := l.foldl insStep .nil, id := s.id, options := s.options }).length
        > maxLength
  · rw [if_pos hlen] at henc
    cases henc
  · rw [if_neg hlen] at henc
    obtain rfl : (⟨marshalJsonSession
        { values := l.foldl insStep .nil, id := s.id, options := s.options }⟩ : String)
        = enc := by
      injection henc
    refine ⟨{
        id := s.id
        name := ""
        isNew := false
        values := objToGoValues (l.foldl insStep .nil)
        options := s.options },
      ?_, rfl, rfl, ?_⟩
    · rw [deserialize]
      show (unmarshalJsonSession (marshalJsonSession
        { values := l.foldl insStep .nil, id := s.id, options := s.options })).map _ = _
      rw [unmarshal_marshal]
      rfl
    · intro k
      cases k with
      | str ks =>
        show lookupG (objToGoValues (l.foldl insStep .nil)) (.str ks) = _
        rw [lookupG_objToGoValues_str, lookupStr_foldl l .nil ks hnd, hl,
          lookupG_strKeyed_str]
        cases lookupL l ks with
        | some v => rfl
        | none => rfl
      | int n =>
        show lookupG (objToGoValues (l.foldl insStep .nil)) (.int n) = _
        rw [lookupG_objToGoValues_nonstr _ (.int n) rfl, hl,
          lookupG_strKeyed_nonstr _ (.int n) rfl]
      | bool b =>
        show lookupG (objToGoValues (l.foldl insStep .nil)) (.bool b) = _
        rw [lookupG_objToGoValues_nonstr _ (.bool b) rfl, hl,
          lookupG_strKeyed_nonstr _ (.bool b) rfl]

end FirestoreGorilla

namespace FirestoreGorilla

/-- Claim C2: with only string keys, `serialize` fails with the max-length error
exactly when the marshalled wire bytes exceed `maxLength` (the check is on
the wire representation, after encoding), and succeeds otherwise. -/
theorem serialize_maxLength_check (s : Session) (l : List (String × JValue))
    (w : List Char) (hl : s.values = strKeyed l)
    (hw : w = marshalJsonSession
      { values := l.foldl insStep .nil, id := s.id, options := s.options }) :
    (w.length > maxLength → serialize s = .error (.maxLengthExceeded w.length)) ∧
    (w.length ≤ maxLength → serialize s = .ok ⟨w⟩) ∧
    (∀ n, serialize s = .error (.maxLengthExceeded n) →
      n = w.length ∧ w.length > maxLength) := by
  subst hw
  rw [serialize, hl, collectValues_strKeyed]
  dsimp only
  refine ⟨fun hgt => by rw [if_pos hgt], fun hle => by rw [if_neg (by omega)], fun n h => ?_⟩
  by_cases hgt : (marshalJsonSession
      { values := l.foldl insStep .nil, id := s.id, options := s.options }).length > maxLength
  · rw [if_pos hgt] at h
    injection h with h
    injection h with h
    exact ⟨h.symm, hgt⟩
  · rw [if_neg hgt] at h
    cases h

/-- Claim C3: a session containing a non-string values key makes `serialize`
fail with a key error (never a silent drop), and `Save` on such a session
writes nothing to the store and sets no cookie. -/
theorem serialize_nonstring_key_rejected (s : Session) (env : SaveEnv)
    (st : FirestoreState) (h : ∃ kv ∈ s.values, kv.1.isStr = false) :
    (∃ k, GoKey.isStr k = false ∧ serialize s = .error (.keyNotString k)) ∧
    (StoreSave env st s).state = st ∧ (StoreSave env st s).cookies = [] ∧
    (StoreSave env st s).error.isSome = true := by
  obtain ⟨k, hk, herr⟩ := collectValues_err s.values .nil h
  have hser : ∀ i : String, serialize { s with id := i } = .error (.keyNotString k) := by
    intro i
    rw [serialize]
    dsimp only
    rw [herr]
  refine ⟨⟨k, hk, ?_⟩, ?_, ?_, ?_⟩
  · have := hser s.id
    simpa using this
  · rw [StoreSave]
    dsimp only
    rw [hser]
  · rw [StoreSave]
    dsimp only
    rw [hser]
  · rw [StoreSave]
    dsimp only
    rw [hser]
    rfl

/-- Claim C9: `serialize` depends only on the values map (not its iteration
order), the ID and the options: permuting a duplicate-free string-keyed
values list leaves the output identical. -/
theorem serialize_deterministic (s1 s2 : Session) (l1 l2 : List (String × JValue))
    (h1 : s1.values = strKeyed l1) (h2 : s2.values = strKeyed l2)
    (hperm : l1.Perm l2) (hnd : (l1.map Prod.fst).Nodup)
    (hid : s1.id = s2.id) (hopt : s1.options = s2.options) :
    serialize s1 = serialize s2 := by
  rw [serialize, serialize, h1, h2, collectValues_strKeyed, collectValues_strKeyed,
    foldl_insStep_perm hperm hnd .nil, hid, hopt]


/-- The field list of a JSON object as string-keyed pairs. -/
def objPairs : JObject → List (String × JValue)
  | .nil => []
  | .cons k v tl => (k, v) :: objPairs tl

theorem objToGoValues_eq_strKeyed : ∀ m : JObject,
    objToGoValues m = strKeyed (objPairs m)
  | .nil => rfl
  | .cons k v tl => by
    simp [objToGoValues, objPairs, strKeyed, objToGoValues_eq_strKeyed tl]
termination_by structural m => m

/-- Claim C10: whenever `deserialize` succeeds, every key of the returned values
map is a string, so the session can be re-encoded without a key-type
error: the serialize copy loop accepts it, and `serialize` never returns a
key error on it. -/
theorem deserialize_values_string_keyed (str0 : String) (s' : Session)
    (h : deserialize str0 = some s') :
    (∀ kv ∈ s'.values, kv.1.isStr = true) ∧
    (∃ m, collectValues s'.values .nil = .ok m) ∧
    (∀ s2 : Session, s2.values = s'.values →
      ∀ k, serialize s2 ≠ .error (.keyNotString k)) := by
  rw [deserialize] at h
  cases hj : unmarshalJsonSession str0.data with
  | none => rw [hj] at h; cases h
  | some j =>
    rw [hj] at h
    injection h with h
    have hvals : s'.values = objToGoValues j.values := by rw [← h]
    refine ⟨?_, ?_, ?_⟩
    · intro kv hkv
      exact objToGoValues_isStr j.values kv (hvals ▸ hkv)
    · rw [hvals, objToGoValues_eq_strKeyed, collectValues_strKeyed]
      exact ⟨_, rfl⟩
    · intro s2 h2 k hcon
      rw [serialize, h2, hvals, objToGoValues_eq_strKeyed, collectValues_strKeyed] at hcon
      dsimp only at hcon
      by_cases hlen : (marshalJsonSession
          { values := (objPairs j.values).foldl insStep .nil, id := s2.id,
            options := s2.options }).length > maxLength
      · rw [if_pos hlen] at hcon
        injection hcon with hcon
        cases hcon
      · rw [if_neg hlen] at hcon
        cases hcon


/-- Claim C5: with no session ID in the transport (cookie absent or empty),
`New` returns a new session (`IsNew`, empty values, no error) and never
consults the backing store: the result is the same for every `get`. -/
theorem new_without_transport_id (cookie : Option String) (name : String)
    (g : String → GetResult) (h : cookie = none ∨ cookie = some "") :
    (StoreNew cookie g name).1.isNew = true ∧
    (StoreNew cookie g name).1.values = [] ∧
    (StoreNew cookie g name).2 = none ∧
    (∀ g' : String → GetResult, StoreNew cookie g name = StoreNew cookie g' name) := by
  rcases h with rfl | rfl
  · exact ⟨rfl, rfl, rfl, fun g' => rfl⟩
  · exact ⟨rfl, rfl, rfl, fun g' => rfl⟩

/-- Claim C6: a cookie ID whose document is NotFound in Firestore yields a new
session (`IsNew = true`) with no error. -/
theorem new_notFound_is_new (g : String → GetResult) (name id : String)
    (hid : id ≠ "") (hg : g id = .notFound) :
    (StoreNew (some id) g name).1.isNew = true ∧
    (StoreNew (some id) g name).2 = none := by
  rw [StoreNew]
  dsimp only [readIDFromCookie]
  rw [if_neg hid, hg]
  exact ⟨rfl, rfl⟩

/-- Claim C7: in `New`, a backend error other than NotFound, a `DataTo` failure,
and a `deserialize` failure all surface as errors; a call returns no error
only when the transport ID resolves to NotFound or to a document that
decodes. -/
theorem new_error_propagation (g : String → GetResult) (name id : String)
    (hid : id ≠ "") :
    (∀ m, g id = .err m → (StoreNew (some id) g name).2 = some (.get m)) ∧
    (g id = .found .malformed → (StoreNew (some id) g name).2 = some .dataTo) ∧
    (∀ enc, g id = .found (.good enc) → deserialize enc = none →
      (StoreNew (some id) g name).2 = some .deserializeFailed) ∧
    ((StoreNew (some id) g name).2 = none →
      g id = .notFound ∨
      ∃ enc s', g id = .found (.good enc) ∧ deserialize enc = some s') := by
  refine ⟨?_, ?_, ?_, ?_⟩
  · intro m hg
    rw [StoreNew]
    dsimp only [readIDFromCookie]
    rw [if_neg hid, hg]
  · intro hg
    rw [StoreNew]
    dsimp only [readIDFromCookie]
    rw [if_neg hid, hg]
  · intro enc hg hdes
    rw [StoreNew]
    dsimp only [readIDFromCookie]
    rw [if_neg hid, hg]
    dsimp only
    rw [hdes]
  · intro hok
    rw [StoreNew] at hok
    dsimp only [readIDFromCookie] at hok
    rw [if_neg hid] at hok
    cases hg : g id with
    | notFound => exact Or.inl rfl
    | err m => rw [hg] at hok; cases hok
    | found doc =>
      cases doc with
      | malformed => rw [hg] at hok; cases hok
      | good enc =>
        rw [hg] at hok
        dsimp only at hok
        cases hdes : deserialize enc with
        | none => rw [hdes] at hok; cases hok
        | some s' => exact Or.inr ⟨enc, s', rfl, hdes⟩


/-- Claim C4: the identifier `Save` persists under is the session's own ID when
non-empty, else the (non-empty) cookie ID, else the freshly allocated
document ID; it is assigned back onto the session, and a session whose ID
was already non-empty is returned unchanged.  On success the document is
written under exactly that identifier. -/
theorem save_id_precedence (env : SaveEnv) (st : FirestoreState) (s : Session)
    (cid chosen : String)
    (hcid : cid = (match readIDFromCookie env.cookie with | .ok v => v | .error _ => ""))
    (hch : chosen = if s.id ≠ "" then s.id else if cid ≠ "" then cid else env.newDocId) :
    (StoreSave env st s).session.id = chosen ∧
    (s.id ≠ "" → (StoreSave env st s).session = s) ∧
    ((StoreSave env st s).error = none → ∃ enc,
      serialize { s with id := chosen } = .ok enc ∧
      (StoreSave env st s).state = setDoc st s.name chosen enc) := by
  have hform : (if (if s.id = "" then cid else s.id) = "" then env.newDocId
      else (if s.id = "" then cid else s.id)) = chosen := by
    rw [hch]
    by_cases hs : s.id = "" <;> by_cases hc : cid = "" <;> simp [hs, hc]
  rw [StoreSave]
  dsimp only
  rw [← hcid, hform]
  refine ⟨?_, ?_, ?_⟩
  · cases hser : serialize { s with id := chosen } with
    | error e => rfl
    | ok enc =>
      cases hsf : env.setFails with
      | some m => rfl
      | none => rfl
  · intro hs
    have hcs : chosen = s.id := by rw [hch]; simp [hs]
    rw [hcs]
    have hsess : ({ s with id := s.id } : Session) = s := rfl
    cases hser : serialize { s with id := s.id } with
    | error e => exact hsess
    | ok enc =>
      cases hsf : env.setFails with
      | some m => exact hsess
      | none => exact hsess
  · intro herr
    cases hser : serialize { s with id := chosen } with
    | error e =>
      rw [hser] at herr
      cases herr
    | ok enc =>
      rw [hser] at herr
      dsimp only at herr
      cases hsf : env.setFails with
      | some m => rw [hsf] at herr; cases herr
      | none =>
        exact ⟨enc, rfl, by dsimp only⟩

/-- Claim C8: on a fully successful `Save` (encode and `Set` both succeeded) a
response cookie is set whose value is the persisted identifier and whose
remaining fields are the session's options; when `Set` fails, no cookie is
set. -/
theorem save_sets_cookie (env : SaveEnv) (st : FirestoreState) (s : Session)
    (o : Options) (ho : s.options = some o) :
    ((StoreSave env st s).error = none →
      (StoreSave env st s).cookies = [{
        name := s.name
        value := (StoreSave env st s).session.id
        path := o.path
        domain := o.domain
        maxAge := o.maxAge
        secure := o.secure
        httpOnly := o.httpOnly
        sameSite := o.sameSite }]) ∧
    (env.setFails.isSome = true → (StoreSave env st s).cookies = []) := by
  rw [StoreSave]
  dsimp only
  constructor
  · intro herr
    revert herr
    cases hser : serialize { s with id := if (if s.id = "" then
        match readIDFromCookie env.cookie with | .ok v => v | .error _ => ""
        else s.id) = "" then env.newDocId else (if s.id = "" then
        match readIDFromCookie env.cookie with | .ok v => v | .error _ => "" else s.id) } with
    | error e => intro herr; cases herr
    | ok enc =>
      cases hsf : env.setFails with
      | some m => intro herr; cases herr
      | none =>
        intro _
        dsimp only
        rw [ho]
        rfl
  · intro hsf
    cases hsf2 : env.setFails with
    | none => rw [hsf2] at hsf; cases hsf
    | some m =>
      cases hser : serialize { s with id := if (if s.id = "" then
          match readIDFromCookie env.cookie with | .ok v => v | .error _ => ""
          else s.id) = "" then env.newDocId else (if s.id = "" then
          match readIDFromCookie env.cookie with | .ok v => v | .error _ => "" else s.id) } with
      | error e => rfl
      | ok enc => rfl

/-! ### Concrete data for the witnesses -/

/-- A small string-keyed values list. -/
def demoList : List (String × JValue) := [("k", .str "v"), ("a", .num 3)]

/-- The same values in the other iteration order. -/
def demoListSwapped : List (String × JValue) := [("a", .num 3), ("k", .str "v")]

/-- A concrete session with string keys. -/
def demoSession : Session :=
  { id := "abc", name := "app", isNew := false,
    values := strKeyed demoList, options := some zeroOptions }

/-- The wire bytes `serialize demoSession` produces. -/
def demoWire : List Char :=
  marshalJsonSession
    { values := demoList.foldl insStep .nil, id := "abc", options := some zeroOptions }

/-- `serialize demoSession`'s output as a string. -/
def demoEnc : String := ⟨demoWire⟩

/-- The session `deserialize demoEnc` rebuilds. -/
def demoDecoded : Session :=
  { id := "abc", name := "", isNew := false,
    values := objToGoValues (demoList.foldl insStep .nil), options := some zeroOptions }

/-- A session carrying a non-string key. -/
def badSession : Session :=
  { id := "", name := "app", isNew := false,
    values := [(GoKey.int 3, .null)], options := some zeroOptions }

/-- A save environment: no request cookie, a fresh document ID available,
`Set` succeeding. -/
def demoEnv : SaveEnv := { cookie := none, newDocId := "fresh1", setFails := none }

/-- An empty Firestore state. -/
def emptyState : FirestoreState := ⟨[]⟩

set_option maxRecDepth 8000 in
/-- Witness for C1 at a concrete session. -/
theorem serialize_deserialize_roundtrip_witness :
    ∃ s', deserialize demoEnc = some s' ∧ s'.id = demoSession.id ∧
      s'.options = demoSession.options ∧
      ∀ k, lookupG s'.values k = lookupG demoSession.values k :=
  serialize_deserialize_roundtrip demoSession demoList demoEnc rfl (by decide) (by rfl)

/-- Witness for C2 at a concrete session. -/
theorem serialize_maxLength_check_witness :
    (demoWire.length > maxLength →
      serialize demoSession = .error (.maxLengthExceeded demoWire.length)) ∧
    (demoWire.length ≤ maxLength → serialize demoSession = .ok ⟨demoWire⟩) ∧
    (∀ n, serialize demoSession = .error (.maxLengthExceeded n) →
      n = demoWire.length ∧ demoWire.length > maxLength) :=
  serialize_maxLength_check demoSession demoList demoWire rfl rfl

/-- Witness for C3 at a concrete session with an integer key. -/
theorem serialize_nonstring_key_rejected_witness :
    (∃ k, GoKey.isStr k = false ∧ serialize badSession = .error (.keyNotString k)) ∧
    (StoreSave demoEnv emptyState badSession).state = emptyState ∧
    (StoreSave demoEnv emptyState badSession).cookies = [] ∧
    (StoreSave demoEnv emptyState badSession).error.isSome = true :=
  serialize_nonstring_key_rejected badSession demoEnv emptyState (by decide)

/-- Witness for C4 at a concrete save. -/
theorem save_id_precedence_witness :
    (StoreSave demoEnv emptyState demoSession).session.id = "abc" ∧
    (demoSession.id ≠ "" → (StoreSave demoEnv emptyState demoSession).session = demoSession) ∧
    ((StoreSave demoEnv emptyState demoSession).error = none → ∃ enc,
      serialize { demoSession with id := "abc" } = .ok enc ∧
      (StoreSave demoEnv emptyState demoSession).state
        = setDoc emptyState demoSession.name "abc" enc) :=
  save_id_precedence demoEnv emptyState demoSession "" "abc" rfl rfl

/-- Witness for C5 at a request with no cookie. -/
theorem new_without_transport_id_witness :
    (StoreNew none (fun _ => .notFound) "app").1.isNew = true ∧
    (StoreNew none (fun _ => .notFound) "app").1.values = [] ∧
    (StoreNew none (fun _ => .notFound) "app").2 = none ∧
    (∀ g' : String → GetResult,
      StoreNew none (fun _ => .notFound) "app" = StoreNew none g' "app") :=
  new_without_transport_id none "app" (fun _ => .notFound) (Or.inl rfl)

/-- Witness for C6 at a cookie ID that is NotFound. -/
theorem new_notFound_is_new_witness :
    (StoreNew (some "sid") (fun _ => .notFound) "app").1.isNew = true ∧
    (StoreNew (some "sid") (fun _ => .notFound) "app").2 = none :=
  new_notFound_is_new (fun _ => .notFound) "app" "sid" (by decide) rfl

/-- Witness for C7 at a backend that always errors. -/
theorem new_error_propagation_witness :
    (∀ m, (fun _ => GetResult.err "boom") "sid" = .err m →
      (StoreNew (some "sid") (fun _ => GetResult.err "boom") "app").2 = some (.get m)) ∧
    ((fun _ => GetResult.err "boom") "sid" = .found .malformed →
      (StoreNew (some "sid") (fun _ => GetResult.err "boom") "app").2 = some .dataTo) ∧
    (∀ enc, (fun _ => GetResult.err "boom") "sid" = .found (.good enc) →
      deserialize enc = none →
      (StoreNew (some "sid") (fun _ => GetResult.err "boom") "app").2
        = some .deserializeFailed) ∧
    ((StoreNew (some "sid") (fun _ => GetResult.err "boom") "app").2 = none →
      (fun _ => GetResult.err "boom") "sid" = .notFound ∨
      ∃ enc s', (fun _ => GetResult.err "boom") "sid" = .found (.good enc) ∧
        deserialize enc = some s') :=
  new_error_propagation (fun _ => GetResult.err "boom") "app" "sid" (by decide)

set_option maxRecDepth 8000 in
/-- Witness for C8 at a concrete successful save. -/
theorem save_sets_cookie_witness :
    ((StoreSave demoEnv emptyState demoSession).error = none →
      (StoreSave demoEnv emptyState demoSession).cookies = [{
        name := demoSession.name
        value := (StoreSave demoEnv emptyState demoSession).session.id
        path := zeroOptions.path
        domain := zeroOptions.domain
        maxAge := zeroOptions.maxAge
        secure := zeroOptions.secure
        httpOnly := zeroOptions.httpOnly
        sameSite := zeroOptions.sameSite }]) ∧
    (demoEnv.setFails.isSome = true →
      (StoreSave demoEnv emptyState demoSession).cookies = []) :=
  save_sets_cookie demoEnv emptyState demoSession zeroOptions rfl

set_option maxRecDepth 8000 in
/-- Witness for C9 at two iteration orders of the same values map. -/
theorem serialize_deterministic_witness :
    serialize demoSession = serialize { demoSession with values := strKeyed demoListSwapped } :=
  serialize_deterministic demoSession
    { demoSession with values := strKeyed demoListSwapped }
    demoList demoListSwapped rfl rfl
    (List.Perm.swap ("a", JValue.num 3) ("k", JValue.str "v") [])
    (by decide) rfl rfl

set_option maxRecDepth 8000 in
/-- Witness for C10 at a concrete stored string. -/
theorem deserialize_values_string_keyed_witness :
    (∀ kv ∈ demoDecoded.values, kv.1.isStr = true) ∧
    (∃ m, collectValues demoDecoded.values .nil = .ok m) ∧
    (∀ s2 : Session, s2.values = demoDecoded.values →
      ∀ k, serialize s2 ≠ .error (.keyNotString k)) :=
  deserialize_values_string_keyed demoEnc demoDecoded (by rfl)

end FirestoreGorilla
